import Mathlib

/-!
Shallow embedding of `src/energize.py` (pandas-based time-series energy analysis).

Conventions of the embedding:
* A pandas `DataFrame`/`Series` with a `DatetimeIndex` is a `List (DateTime × ℚ)`
  of (timestamp, value) rows, in index order.
* `DateTime` records the calendar fields that the code reads
  (`year`, `month`, `day`, `hour`, `minute`) together with the `weekday`
  attribute (Monday = 0) that pandas exposes on a timestamp.
* Python `None` and raised exceptions are modelled explicitly: a function that
  can return `None` yields a `PyVal`, a function that can raise yields
  `Except String _` whose error string names the Python exception class.
* For the grouping/integration part (`consecutives`, `trapz`) only time
  differences matter, so there timestamps are `Nat` minutes and a
  `pd.Timedelta` threshold is a `Nat` number of minutes.
-/

namespace Energize

/-- A timestamp, with the calendar components used by `energize.py`.
`weekday` is the value of pandas' `.weekday` (Monday = 0 .. Sunday = 6),
carried as part of the timestamp as pandas carries it. -/
structure DateTime where
  year : Nat
  month : Nat
  day : Nat
  hour : Nat
  minute : Nat
  weekday : Nat
deriving DecidableEq, Repr

/-- Lexicographic order on timestamps (calendar order). -/
def DateTime.leb (a b : DateTime) : Bool :=
  if a.year ≠ b.year then a.year < b.year
  else if a.month ≠ b.month then a.month < b.month
  else if a.day ≠ b.day then a.day < b.day
  else if a.hour ≠ b.hour then a.hour < b.hour
  else a.minute ≤ b.minute

/-- A calendar-partial label (pandas partial string indexing): a year,
a year-month, or a full date. -/
inductive Label where
  | y (year : Nat)
  | ym (year month : Nat)
  | ymd (year month day : Nat)
deriving DecidableEq, Repr

/-- `l.matches t`: the timestamp `t` falls inside the calendar period the
label denotes (pandas `data[label]` row selection). -/
def Label.matches : Label → DateTime → Bool
  | .y a, t => t.year == a
  | .ym a b, t => t.year == a && t.month == b
  | .ymd a b c, t => t.year == a && t.month == b && t.day == c

/-- `l.geStart t`: `t` is at or after the first instant of `l`'s period
(used for the start bound of a slice). -/
def Label.geStart : Label → DateTime → Bool
  | .y a, t => a ≤ t.year
  | .ym a b, t => a < t.year || (a == t.year && b ≤ t.month)
  | .ymd a b c, t =>
      a < t.year || (a == t.year && (b < t.month || (b == t.month && c ≤ t.day)))

/-- `l.leEnd t`: `t` is at or before the last instant of `l`'s period
(used for the end bound of a slice; pandas slices are inclusive of the
whole period the end label denotes). -/
def Label.leEnd : Label → DateTime → Bool
  | .y a, t => t.year ≤ a
  | .ym a b, t => t.year < a || (t.year == a && t.month ≤ b)
  | .ymd a b c, t =>
      t.year < a || (t.year == a && (t.month < b || (t.month == b && t.day ≤ c)))

/-- A `RangeToken` (docstring of `range_token_df`): either a datetime label
(partial or formal) or a start/end pair of such labels, where either bound
may be `None` meaning the dataset's own minimum/maximum. -/
inductive RangeToken where
  | label (l : Label)
  | pair (s e : Option Label)
deriving DecidableEq, Repr

/-- A `DateRange` as accepted by `data_in_range`: a single token or a list
of tokens. -/
inductive DRange where
  | one (t : RangeToken)
  | many (ts : List RangeToken)
deriving DecidableEq, Repr

/-- A frame: rows of (timestamp, value), as a pandas DataFrame/Series with
one numeric column. -/
abbrev Frame := List (DateTime × ℚ)

/-- A Python value that is either a DataFrame or `None`. -/
inductive PyVal where
  | frame (f : Frame)
  | null
deriving DecidableEq, Repr

/-- `sort_index()`: sort rows by timestamp. -/
def sortIndex (f : Frame) : Frame :=
  f.mergeSort (fun a b => DateTime.leb a.1 b.1)

/-- `range_token_df(data, token)` (energize.py lines 27-34).
For a string token, `data[token]` raises `KeyError` when the label matches
no row; the handler prints a diagnostic and the function returns `None`
(modelled as `Option.none`).  For a start/end tuple the slice (inclusive,
with an absent bound meaning no constraint) is returned. -/
def range_token_df (data : Frame) (token : RangeToken) : Option Frame :=
  match token with
  | .label l =>
      let sub := data.filter (fun r => l.matches r.1)
      if sub.isEmpty then none else some sub
  | .pair s e =>
      some (data.filter (fun r =>
        (match s with | none => true | some a => a.geStart r.1) &&
        (match e with | none => true | some b => b.leEnd r.1)))

/-- `data_in_range(data, d_range)` (energize.py lines 41-47).
For a list, `pd.concat` drops `None` entries silently, but raises
`ValueError` when every entry is `None` (or the list is empty); the
concatenation is then sorted by index.  For a single token the result of
`range_token_df` is returned as is — possibly Python `None`. -/
def data_in_range (data : Frame) (d : DRange) : Except String PyVal :=
  match d with
  | .many ts =>
      let objs := ts.filterMap (range_token_df data)
      if objs.isEmpty then .error "ValueError" else
        .ok (.frame (sortIndex objs.flatten))
  | .one t =>
      match range_token_df data t with
      | some f => .ok (.frame f)
      | none => .ok .null

/-- The `times` keyword of `time_filter`: a single ('HH:MM','HH:MM') pair
or a list of such pairs; a time of day is its minute count. -/
inductive Times where
  | pair (s e : Nat)
  | windows (ps : List (Nat × Nat))
deriving DecidableEq, Repr

/-- Minute-of-day of a timestamp. -/
def minuteOfDay (t : DateTime) : Nat := t.hour * 60 + t.minute

/-- `DataFrame.between_time(s, e)`: rows whose time of day lies in the
inclusive window; a window with `s > e` wraps past midnight. -/
def between_time (f : Frame) (s e : Nat) : Frame :=
  f.filter (fun r =>
    let m := minuteOfDay r.1
    if s ≤ e then s ≤ m && m ≤ e else s ≤ m || m ≤ e)

/-- The keyword arguments of `time_filter`; every field is optional. -/
structure FilterSpec where
  «include» : Option DRange := none
  times : Option Times := none
  daysofweek : Option (List Nat) := none
  months : Option (List Nat) := none
  blacklist : Option DRange := none

/-- Using a `None` working set where a DataFrame is required raises
`AttributeError` (Python attribute access on `None`). -/
def asFrame (v : PyVal) : Except String Frame :=
  match v with
  | .frame f => .ok f
  | .null => .error "AttributeError"

/-- The `times` stage of `time_filter` (lines 79-86): `out.between_time`
for a single window; for a list of windows, the windows' restrictions are
concatenated and re-sorted.  An empty list hits `d_range[0]` and raises
`IndexError`. -/
def stageTimes (out : PyVal) (ts : Times) : Except String PyVal :=
  match ts with
  | .pair s e => (asFrame out).map (fun f => .frame (between_time f s e))
  | .windows [] => .error "IndexError"
  | .windows ps =>
      (asFrame out).map (fun f =>
        .frame (sortIndex (ps.map (fun p => between_time f p.1 p.2)).flatten))

/-- The `daysofweek` stage (line 88): keep rows whose weekday is listed. -/
def stageDays (out : PyVal) (days : List Nat) : Except String PyVal :=
  (asFrame out).map (fun f => .frame (f.filter (fun r => days.contains r.1.weekday)))

/-- The `months` stage (line 90): keep rows whose month is listed. -/
def stageMonths (out : PyVal) (months : List Nat) : Except String PyVal :=
  (asFrame out).map (fun f => .frame (f.filter (fun r => months.contains r.1.month)))

/-- The `blacklist` stage (line 92): resolve the blacklist against the
original `data` and `drop` its index from the working set with
`errors='ignore'`.  `out.drop` is looked up before the argument is
evaluated, and `.index` of a `None` resolution raises `AttributeError`. -/
def stageBlacklist (data : Frame) (out : PyVal) (bl : DRange) : Except String PyVal :=
  (asFrame out).bind (fun f =>
    (data_in_range data bl).bind (fun blv =>
      match blv with
      | .null => .error "AttributeError"
      | .frame g =>
          .ok (.frame (f.filter (fun r => !((g.map (fun x => x.1)).contains r.1))))))

/-- `time_filter(data, **kwds)` (energize.py lines 75-93): the stages are
applied in the fixed order include, times, daysofweek, months, blacklist;
an absent keyword is a no-op. -/
def time_filter (data : Frame) (kwds : FilterSpec) : Except String PyVal :=
  (match kwds.«include» with
   | none => Except.ok (PyVal.frame data)
   | some inc => data_in_range data inc).bind (fun out =>
  (match kwds.times with
   | none => Except.ok out
   | some ts => stageTimes out ts).bind (fun out =>
  (match kwds.daysofweek with
   | none => Except.ok out
   | some days => stageDays out days).bind (fun out =>
  (match kwds.months with
   | none => Except.ok out
   | some ms => stageMonths out ms).bind (fun out =>
  (match kwds.blacklist with
   | none => Except.ok out
   | some bl => stageBlacklist data out bl)))))

/-!
Grouping and integration (`consecutives`, `trapz`).  Here a timestamp is a
`Nat` number of minutes and a `pd.Timedelta` threshold a `Nat` number of
minutes; only differences of timestamps are used by the code.
-/

/-- A frame for the grouping/integration functions: rows of
(timestamp in minutes, value). -/
abbrev Frame2 := List (Nat × ℚ)

/-- `dates.diff() > pd.Timedelta(threshold)` (line 158): the first entry of
`diff` is `NaT`, and `NaT > threshold` is `False`; every later entry
compares the difference of adjacent timestamps with the threshold. -/
def indicators (thr : Nat) : Frame2 → List Bool
  | [] => []
  | r :: rs =>
      false :: List.zipWith
        (fun a b : Nat × ℚ => decide ((b.1 : Int) - (a.1 : Int) > (thr : Int)))
        (r :: rs) rs

/-- Running sum with initial accumulator (pandas `cumsum`). -/
def cumsumFrom (acc : Nat) : List Nat → List Nat
  | [] => []
  | x :: xs => (acc + x) :: cumsumFrom (acc + x) xs

/-- Pandas `Series.cumsum`. -/
def cumsum (l : List Nat) : List Nat := cumsumFrom 0 l

/-- `indicators.apply(lambda x: 1 if x else 0).cumsum()` (line 159): the
group label of every row. -/
def groupLabels (thr : Nat) (data : Frame2) : List Nat :=
  cumsum ((indicators thr data).map (fun x => if x then 1 else 0))

/-- `consecutives(data, threshold)` (energize.py lines 156-160):
`data.groupby(groups)` where `groups` are the cumulative-sum labels; the
result is the list of (label, group) pairs in increasing label order, as
iterating a pandas `GroupBy` yields them. -/
def consecutives (data : Frame2) (thr : Nat) : List (Nat × Frame2) :=
  (List.range ((groupLabels thr data).foldl (fun m l => Nat.max m (l + 1)) 0)).map
    (fun g =>
      (g, ((data.zip (groupLabels thr data)).filter (fun p => p.2 == g)).map
        (fun p => p.1)))

/-- `pd.Timedelta.max` (the default grouping threshold of `trapz`),
in whole minutes. -/
def timedeltaMaxMinutes : Nat := 9223372036854775807 / 60000000000

/-- `np.trapz(x, x.index)` on one run: the sum of trapezoid areas
`(t_b − t_a) · (v_a + v_b) / 2` over adjacent samples, in value·minutes. -/
def trapzArea (run : Frame2) : ℚ :=
  (List.zipWith
    (fun a b : Nat × ℚ => (((b.1 : ℚ) - (a.1 : ℚ)) * (a.2 + b.2)) / 2)
    run run.tail).sum

/-- Truncation of a rational toward zero (numpy `.astype` of a timedelta
to a coarser unit truncates the integer division). -/
def truncQ (q : ℚ) : Int := Int.tdiv q.num (q.den : Int)

/-- `approx_kwh` (line 173): one run's trapezoidal integral converted to a
whole number of hours (`astype('timedelta64[h]').astype(int)`). -/
def approx_kwh (run : Frame2) : Int := truncQ (trapzArea run / 60)

/-- `trapz(data, offset=None)` (energize.py lines 169-174): group by the
gap threshold (default `pd.Timedelta.max`), integrate each run, sum. -/
def trapz (data : Frame2) (offset : Option Nat) : Int :=
  ((consecutives data (offset.getD timedeltaMaxMinutes)).map
    (fun g => approx_kwh g.2)).sum

/-!
Distribution fitting and sample adjustment.  A pandas `Series` here is a
`List (Nat × ℚ)` of (index label, value) pairs.  The purely numerical
library calls that have no exact rational meaning are parameters of the
embedding: `logO : ℚ → Option ℚ` stands for `np.log` (`none` is the
`-inf` produced by `log 0`), `kdeMode : List ℚ → ℚ` for the
`gaussian_kde` + `minimize_scalar` mode estimate, `expO : ℚ → ℚ` for
`math.exp`, and `ppf : ℚ → ℚ` for `stats.lognorm.ppf` at the fitted
parameters.
-/

/-- Pandas `Series.median`: middle of the sorted values (mean of the two
middles for an even count).  The median of an empty series is `NaN`;
that case is modelled as `0` and never reached under the claims'
non-empty hypotheses. -/
def median (l : List ℚ) : ℚ :=
  let s := l.mergeSort (fun a b : ℚ => a ≤ b)
  if l.length = 0 then 0
  else if l.length % 2 = 1 then s.getD (l.length / 2) 0
  else (s.getD (l.length / 2 - 1) 0 + s.getD (l.length / 2) 0) / 2

/-- `mad(data)` (energize.py lines 128-129): the median of the absolute
deviations from the median. -/
def mad (l : List ℚ) : ℚ := median (l.map (fun x => |x - median l|))

/-- The log-transformed data of `lognorm_params` (lines 183-186): take
`np.log` of every value and replace a `-inf` result (a zero reading)
with `0`. -/
def logTransform (logO : ℚ → Option ℚ) (values : List ℚ) : List ℚ :=
  (values.map logO).map (fun x => x.getD 0)

/-- `lognorm_params(series)` (energize.py lines 181-193): shape is
`mad(log_data) * 1.4826`, location is `0`, scale is `exp` of the density
mode estimated over the log data. -/
def lognorm_params (logO : ℚ → Option ℚ) (kdeMode : List ℚ → ℚ) (expO : ℚ → ℚ)
    (values : List ℚ) : ℚ × ℚ × ℚ :=
  let log_data := logTransform logO values
  let est_std := mad log_data * 1.4826
  let est_mu := kdeMode log_data
  (est_std, 0, expO est_mu)

/-- `1/(series.size+2*buffer-1)` (line 207). -/
def q_step (n buffer : Nat) : ℚ := 1 / ((n : ℚ) + 2 * (buffer : ℚ) - 1)

/-- `np.linspace(lo, hi, num)` with endpoint: `num` evenly spaced points
from `lo` to `hi`. -/
def linspace (lo hi : ℚ) (num : Nat) : List ℚ :=
  if num = 1 then [lo]
  else (List.range num).map
    (fun (k : Nat) => lo + (k : ℚ) * ((hi - lo) / ((num : ℚ) - 1)))

/-- `np.linspace(buffer*q_step, 1-buffer*q_step, series.size)` (line 208). -/
def q_array (n buffer : Nat) : List ℚ :=
  linspace ((buffer : ℚ) * q_step n buffer) (1 - (buffer : ℚ) * q_step n buffer) n

/-- `series.sort_values()`: sort a series by value. -/
def sort_values (s : List (Nat × ℚ)) : List (Nat × ℚ) :=
  s.mergeSort (fun a b => a.2 ≤ b.2)

/-- `.sort_index()` on a series: sort by index label. -/
def sort_index (s : List (Nat × ℚ)) : List (Nat × ℚ) :=
  s.mergeSort (fun a b => a.1 ≤ b.1)

/-- `pd.Series(q_array, s_sorted.index)` (line 209): the `i`-th sorted
rank's index label receives the `i`-th quantile. -/
def assignQuantiles (series : List (Nat × ℚ)) (buffer : Nat) : List (Nat × ℚ) :=
  List.zipWith (fun p q => (p.1, q)) (sort_values series) (q_array series.length buffer)

/-- `adjust_sample(series, buffer=1)` (energize.py lines 204-211): assign
rank quantiles to the sorted sample, re-key them by the original index
(`sort_index`), and push each quantile through the fitted inverse CDF
(`ppf`, a parameter of the embedding standing for
`stats.lognorm.ppf(·, *lognorm_params(series))`). -/
def adjust_sample (ppf : ℚ → ℚ) (series : List (Nat × ℚ)) (buffer : Nat) :
    List (Nat × ℚ) :=
  (sort_index (assignQuantiles series buffer)).map (fun p => (p.1, ppf p.2))

/-!
Proof-support view of `consecutives`: the label/groupby computation is
proved equal to a direct chunking recursion, on which the partition
properties are established by structural induction.
-/

/-- Chunking helper: given the previous timestamp `t`, split the remaining
rows into the rest of the current run and the following runs. -/
def chunksGo (thr : Nat) (t : Nat) : Frame2 → Frame2 × List Frame2
  | [] => ([], [])
  | r :: rs =>
      if (r.1 : Int) - (t : Int) > (thr : Int) then
        ([], (r :: (chunksGo thr r.1 rs).1) :: (chunksGo thr r.1 rs).2)
      else
        (r :: (chunksGo thr r.1 rs).1, (chunksGo thr r.1 rs).2)

/-- The maximal runs of a frame: a new run starts exactly where the gap to
the previous row exceeds the threshold. -/
def chunks (thr : Nat) : Frame2 → List Frame2
  | [] => []
  | r :: rs => (r :: (chunksGo thr r.1 rs).1) :: (chunksGo thr r.1 rs).2

/-- The group labels of the rows after the first, given the previous
timestamp `t` and the previous label `acc`. -/
def labelsFrom (thr : Nat) : Nat → Nat → Frame2 → List Nat
  | _, _, [] => []
  | t, acc, b :: rs =>
      (if (b.1 : Int) - (t : Int) > (thr : Int) then acc + 1 else acc) ::
        labelsFrom thr b.1
          (if (b.1 : Int) - (t : Int) > (thr : Int) then acc + 1 else acc) rs

/-- Timestamp of the last row of `l`, or `t` when `l` is empty. -/
def lastT (t : Nat) (l : Frame2) : Nat :=
  match l.getLast? with
  | some a => a.1
  | none => t

/-!
`intersect` (energize.py lines 218-220).
-/

/-- `data.loc[ixs]` for a list of index labels: every label in turn
selects all rows carrying that label. -/
def loc (data : Frame2) (ixs : List Nat) : Frame2 :=
  (ixs.map (fun t => data.filter (fun r => r.1 == t))).flatten

/-- `data1.index.intersection(data2.index)`: the labels of `data1` that
also occur in `data2`, without duplicates, in `data1`'s order. -/
def indexIntersection (xs ys : List Nat) : List Nat :=
  xs.dedup.filter (fun t => ys.contains t)

/-- `intersect(data1, data2)` (energize.py lines 218-220). -/
def intersect (data1 data2 : Frame2) : Frame2 × Frame2 :=
  let ixs := indexIntersection (data1.map (fun r => r.1)) (data2.map (fun r => r.1))
  (loc data1 ixs, loc data2 ixs)

/-!
Concrete example data used by witnesses and counterexamples.
-/

/-- A school-day morning timestamp (Monday 2016-09-05 08:00). -/
def dtA : DateTime := ⟨2016, 9, 5, 8, 0, 0⟩

/-- A late-evening timestamp (Tuesday 2016-09-06 23:30). -/
def dtB : DateTime := ⟨2016, 9, 6, 23, 30, 1⟩

/-- A two-row dataset over September 2016. -/
def frameAB : Frame := [(dtA, 1), (dtB, 2)]

/-- Five hourly readings of value 2 (the spec's integration scenario). -/
def hourlyTwos : Frame2 := [(0, 2), (60, 2), (120, 2), (180, 2), (240, 2)]

/-- A sorted three-row dataset with one gap above 20 minutes. -/
def dataC2 : Frame2 := [(0, 1), (10, 2), (100, 3)]

/-!
Bridge: `consecutives` (labels / cumulative sum / groupby) computes the
chunk decomposition `chunks`, with groups labelled `0, 1, 2, …`.
-/

theorem cumsumFrom_eq_labelsFrom (thr : Nat) (l : Frame2) :
    ∀ (a : Nat × ℚ) (acc : Nat),
      cumsumFrom acc ((List.zipWith
          (fun p q : Nat × ℚ => decide ((q.1 : Int) - (p.1 : Int) > (thr : Int)))
          (a :: l) l).map (fun x => if x then 1 else 0))
        = labelsFrom thr a.1 acc l := by
  induction l with
  | nil => intro a acc; rfl
  | cons b l ih =>
      intro a acc
      by_cases h : ((b.1 : Int) - (a.1 : Int) > (thr : Int)) <;>
        simp only [List.zipWith_cons_cons, List.map_cons, cumsumFrom, labelsFrom] <;>
        simp [h, ih b]

theorem groupLabels_cons (thr : Nat) (r : Nat × ℚ) (rs : Frame2) :
    groupLabels thr (r :: rs) = 0 :: labelsFrom thr r.1 0 rs := by
  unfold groupLabels cumsum indicators
  simp only [List.map_cons, cumsumFrom, if_false, Bool.false_eq_true]
  rw [cumsumFrom_eq_labelsFrom]

theorem filter_zip_labelsFrom (thr g : Nat) (rs : Frame2) :
    ∀ (t acc : Nat),
      ((rs.zip (labelsFrom thr t acc rs)).filter (fun p => p.2 == g)).map
          (fun p => p.1)
        = if g < acc then []
          else if g = acc then (chunksGo thr t rs).1
          else (chunksGo thr t rs).2.getD (g - acc - 1) [] := by
  induction rs with
  | nil =>
      intro t acc
      simp only [labelsFrom, List.zip_nil_left, List.filter_nil, List.map_nil, chunksGo]
      split <;> try rfl
      split <;> simp
  | cons b rs ih =>
      intro t acc
      by_cases h : ((b.1 : Int) - (t : Int) > (thr : Int))
      · simp only [labelsFrom, if_pos h, List.zip_cons_cons, List.filter_cons,
          chunksGo]
        by_cases h1 : g = acc + 1
        · have hb : (((b, acc + 1) : (Nat × ℚ) × Nat).2 == g) = true := by simp [h1]
          have h2 : ¬ g < acc + 1 := by omega
          have h3 : ¬ g < acc := by omega
          have h4 : g ≠ acc := by omega
          have h5 : g - acc - 1 = 0 := by omega
          rw [if_pos hb, List.map_cons, ih b.1]
          simp [h1, h2, h3, h4, h5]
        · have hb : (((b, acc + 1) : (Nat × ℚ) × Nat).2 == g) = false := by
            simp [Ne.symm h1]
          simp only [hb, Bool.false_eq_true, if_false, ih b.1]
          by_cases h2 : g < acc
          · have h3 : g < acc + 1 := by omega
            simp [h2, h3]
          · by_cases h4 : g = acc
            · have h3 : g < acc + 1 := by omega
              simp [h2, h3, h4]
            · have h3 : ¬ g < acc + 1 := by omega
              have h6 : g - acc - 1 = (g - (acc + 1) - 1) + 1 := by omega
              simp [h2, h3, h4, h1, h6]
      · simp only [labelsFrom, if_neg h, List.zip_cons_cons, List.filter_cons,
          chunksGo]
        by_cases h1 : g = acc
        · have hb : (((b, acc) : (Nat × ℚ) × Nat).2 == g) = true := by simp [h1]
          have h2 : ¬ g < acc := by omega
          simp only [hb, if_true, List.map_cons, ih b.1]
          simp [h1, h2]
        · have hb : (((b, acc) : (Nat × ℚ) × Nat).2 == g) = false := by
            simp [Ne.symm h1]
          simp only [hb, Bool.false_eq_true, if_false, ih b.1]
          simp [h1]

theorem foldl_labelsFrom (thr : Nat) (rs : Frame2) :
    ∀ (t acc : Nat),
      (labelsFrom thr t acc rs).foldl (fun m l => Nat.max m (l + 1)) (acc + 1)
        = acc + (chunksGo thr t rs).2.length + 1 := by
  induction rs with
  | nil => intro t acc; simp [labelsFrom, chunksGo]
  | cons b rs ih =>
      intro t acc
      by_cases h : ((b.1 : Int) - (t : Int) > (thr : Int))
      · simp only [labelsFrom, if_pos h, List.foldl_cons, chunksGo]
        have hm : Nat.max (acc + 1) (acc + 1 + 1) = (acc + 1) + 1 :=
          Nat.max_eq_right (by omega)
        rw [hm, ih b.1 (acc + 1)]
        simp only [List.length_cons]
        omega
      · simp only [labelsFrom, if_neg h, List.foldl_cons, chunksGo]
        have hm : Nat.max (acc + 1) (acc + 1) = acc + 1 := Nat.max_self (acc + 1)
        rw [hm, ih b.1 acc]

theorem consecutives_eq_enum_chunks (data : Frame2) (thr : Nat) :
    consecutives data thr = (chunks thr data).enum := by
  cases data with
  | nil => rfl
  | cons r rs =>
      unfold consecutives
      rw [groupLabels_cons]
      have hn : (0 :: labelsFrom thr r.1 0 rs).foldl (fun m l => Nat.max m (l + 1)) 0
          = (chunksGo thr r.1 rs).2.length + 1 := by
        simp only [List.foldl_cons]
        have h0 : Nat.max 0 (0 + 1) = 0 + 1 := rfl
        rw [h0, foldl_labelsFrom]
        omega
      rw [hn]
      apply List.ext_getElem
      · simp [chunks, List.enum_length]
      · intro i h1 h2
        simp only [List.getElem_map, List.getElem_range, List.getElem_enum,
          List.zip_cons_cons, List.filter_cons]
        cases i with
        | zero =>
            have hb : ((0 : Nat) == 0) = true := rfl
            simp only [hb, if_true, List.map_cons, filter_zip_labelsFrom thr 0 rs r.1 0]
            simp [chunks]
        | succ j =>
            have hb : ((0 : Nat) == (j + 1)) = false := rfl
            simp only [hb, Bool.false_eq_true, if_false,
              filter_zip_labelsFrom thr (j + 1) rs r.1 0]
            have h3 : ¬ (j + 1) < 0 := by omega
            have h4 : (j + 1) ≠ 0 := by omega
            have h5 : j + 1 - 0 - 1 = j := by omega
            simp only [h3, if_false, h4, h5, chunks]
            have hj : j < (chunksGo thr r.1 rs).2.length := by
              simp only [List.length_map, List.length_range] at h1
              omega
            simp [List.getD_eq_getElem?_getD, List.getElem?_eq_getElem hj]

theorem chunksGo_flatten (thr : Nat) (rs : Frame2) :
    ∀ t : Nat, (chunksGo thr t rs).1 ++ (chunksGo thr t rs).2.flatten = rs := by
  induction rs with
  | nil => intro t; rfl
  | cons b rs ih =>
      intro t
      by_cases h : ((b.1 : Int) - (t : Int) > (thr : Int)) <;>
        simp [chunksGo, h, ih b.1]

theorem chunks_flatten (thr : Nat) (data : Frame2) :
    (chunks thr data).flatten = data := by
  cases data with
  | nil => rfl
  | cons r rs => simp [chunks, chunksGo_flatten thr rs r.1]

theorem chunksGo_ne_nil (thr : Nat) (rs : Frame2) :
    ∀ t : Nat, ∀ c ∈ (chunksGo thr t rs).2, c ≠ [] := by
  induction rs with
  | nil => intro t c hc; simp [chunksGo] at hc
  | cons b rs ih =>
      intro t c hc
      by_cases h : ((b.1 : Int) - (t : Int) > (thr : Int))
      · simp only [chunksGo, if_pos h, List.mem_cons] at hc
        rcases hc with rfl | hc
        · simp
        · exact ih b.1 c hc
      · simp only [chunksGo, if_neg h] at hc
        exact ih b.1 c hc

theorem chunks_ne_nil (thr : Nat) (data : Frame2) :
    ∀ c ∈ chunks thr data, c ≠ [] := by
  cases data with
  | nil => intro c hc; simp [chunks] at hc
  | cons r rs =>
      intro c hc
      simp only [chunks, List.mem_cons] at hc
      rcases hc with rfl | hc
      · simp
      · exact chunksGo_ne_nil thr rs r.1 c hc

theorem chain_shift (thr : Nat) (a a' : Nat × ℚ) (hE : a.1 = a'.1) (l : Frame2) :
    List.Chain (fun p q : Nat × ℚ => (q.1 : Int) - (p.1 : Int) ≤ (thr : Int)) a l →
    List.Chain (fun p q : Nat × ℚ => (q.1 : Int) - (p.1 : Int) ≤ (thr : Int)) a' l := by
  intro h
  cases l with
  | nil => exact List.Chain.nil
  | cons x l =>
      cases h with
      | cons hr hc => exact List.Chain.cons (by rw [← hE]; exact hr) hc

theorem chunksGo_chain (thr : Nat) (rs : Frame2) :
    ∀ t : Nat,
      List.Chain (fun a b : Nat × ℚ => (b.1 : Int) - (a.1 : Int) ≤ (thr : Int))
        (t, 0) (chunksGo thr t rs).1
      ∧ ∀ c ∈ (chunksGo thr t rs).2,
          List.Chain' (fun a b : Nat × ℚ => (b.1 : Int) - (a.1 : Int) ≤ (thr : Int)) c := by
  induction rs with
  | nil => intro t; exact ⟨List.Chain.nil, by simp [chunksGo]⟩
  | cons b rs ih =>
      intro t
      by_cases h : ((b.1 : Int) - (t : Int) > (thr : Int))
      · refine ⟨?_, ?_⟩
        · simp only [chunksGo, if_pos h]
          exact List.Chain.nil
        · intro c hc
          simp only [chunksGo, if_pos h, List.mem_cons] at hc
          rcases hc with rfl | hc
          · show List.Chain _ b (chunksGo thr b.1 rs).1
            exact chain_shift thr (b.1, 0) b rfl _ (ih b.1).1
          · exact (ih b.1).2 c hc
      · refine ⟨?_, ?_⟩
        · simp only [chunksGo, if_neg h]
          refine List.Chain.cons ?_ (chain_shift thr (b.1, 0) b rfl _ (ih b.1).1)
          show (b.1 : Int) - (t : Int) ≤ (thr : Int)
          omega
        · intro c hc
          simp only [chunksGo, if_neg h] at hc
          exact (ih b.1).2 c hc

theorem chunks_chain (thr : Nat) (data : Frame2) :
    ∀ c ∈ chunks thr data,
      List.Chain' (fun a b : Nat × ℚ => (b.1 : Int) - (a.1 : Int) ≤ (thr : Int)) c := by
  cases data with
  | nil => intro c hc; simp [chunks] at hc
  | cons r rs =>
      intro c hc
      simp only [chunks, List.mem_cons] at hc
      rcases hc with rfl | hc
      · show List.Chain _ r (chunksGo thr r.1 rs).1
        exact chain_shift thr (r.1, 0) r rfl _ (chunksGo_chain thr rs r.1).1
      · exact (chunksGo_chain thr rs r.1).2 c hc

theorem lastT_cons (t : Nat) (r : Nat × ℚ) (l : Frame2) :
    lastT t (r :: l) = lastT r.1 l := by
  cases l with
  | nil => rfl
  | cons b l =>
      have h : ∃ x, (b :: l).getLast? = some x := by
        cases h : (b :: l).getLast? with
        | none => simp at h
        | some x => exact ⟨x, rfl⟩
      obtain ⟨x, hx⟩ := h
      simp [lastT, List.getLast?_cons_cons, hx]

theorem mem_getLast?_lastT (t : Nat) (l : Frame2) :
    ∀ a ∈ l.getLast?, a.1 = lastT t l := by
  intro a ha
  simp only [lastT]
  cases hl : l.getLast? with
  | none => rw [hl] at ha; simp at ha
  | some b => rw [hl] at ha; simp at ha; rw [ha]

theorem chunksGo_gap (thr : Nat) (rs : Frame2) :
    ∀ t : Nat,
      List.Chain'
        (fun c d : Frame2 =>
          ∀ a ∈ c.getLast?, ∀ b ∈ d.head?, (b.1 : Int) - (a.1 : Int) > (thr : Int))
        (chunksGo thr t rs).2
      ∧ ∀ q ∈ ((chunksGo thr t rs).2).head?, ∀ b ∈ q.head?,
          (b.1 : Int) - (lastT t (chunksGo thr t rs).1 : Int) > (thr : Int) := by
  induction rs with
  | nil => intro t; exact ⟨List.chain'_nil, by simp [chunksGo]⟩
  | cons b rs ih =>
      intro t
      by_cases h : ((b.1 : Int) - (t : Int) > (thr : Int))
      · refine ⟨?_, ?_⟩
        · simp only [chunksGo, if_pos h]
          rw [List.chain'_cons']
          refine ⟨?_, (ih b.1).1⟩
          intro d hd a ha x hx
          have h1 : a.1 = lastT b.1 (chunksGo thr b.1 rs).1 := by
            have h2 := mem_getLast?_lastT b.1 (b :: (chunksGo thr b.1 rs).1) a ha
            rwa [lastT_cons] at h2
          rw [h1]
          exact (ih b.1).2 d hd x hx
        · simp only [chunksGo, if_pos h, List.head?_cons]
          intro q hq x hx
          simp only [Option.mem_def, Option.some.injEq] at hq
          subst hq
          simp only [List.head?_cons, Option.mem_def, Option.some.injEq] at hx
          subst hx
          simpa [lastT] using h
      · refine ⟨?_, ?_⟩
        · simp only [chunksGo, if_neg h]
          exact (ih b.1).1
        · simp only [chunksGo, if_neg h]
          intro q hq x hx
          rw [lastT_cons]
          exact (ih b.1).2 q hq x hx

theorem chunks_gap (thr : Nat) (data : Frame2) :
    List.Chain'
      (fun c d : Frame2 =>
        ∀ a ∈ c.getLast?, ∀ b ∈ d.head?, (b.1 : Int) - (a.1 : Int) > (thr : Int))
      (chunks thr data) := by
  cases data with
  | nil => exact List.chain'_nil
  | cons r rs =>
      show List.Chain' _ ((r :: (chunksGo thr r.1 rs).1) :: (chunksGo thr r.1 rs).2)
      rw [List.chain'_cons']
      refine ⟨?_, (chunksGo_gap thr rs r.1).1⟩
      intro d hd a ha x hx
      have h1 : a.1 = lastT r.1 (chunksGo thr r.1 rs).1 := by
        have h2 := mem_getLast?_lastT r.1 (r :: (chunksGo thr r.1 rs).1) a ha
        rwa [lastT_cons] at h2
      rw [h1]
      exact (chunksGo_gap thr rs r.1).2 d hd x hx

theorem snd_mem_of_mem_enum {α : Type} {g : Nat × α} {l : List α}
    (hg : g ∈ l.enum) : g.2 ∈ l := by
  have h := List.mem_enum_iff_getElem?.mp hg
  exact List.getElem?_mem h

/-- Claim C2: for a time-ordered dataset and any gap threshold,
`consecutives` partitions the dataset exactly — the concatenation of the
runs is the dataset itself, run labels are `0, 1, 2, …`, every run is
non-empty, adjacent rows inside a run are at most `thr` apart, and the gap
in front of every subsequent run exceeds `thr`. -/
theorem C2_consecutives_partition (data : Frame2) (thr : Nat)
    (hsorted : List.Chain' (fun a b : Nat × ℚ => a.1 ≤ b.1) data) :
    (((consecutives data thr).map Prod.snd).flatten = data)
    ∧ ((consecutives data thr).map Prod.fst
        = List.range (consecutives data thr).length)
    ∧ (∀ g ∈ consecutives data thr, g.2 ≠ [])
    ∧ (∀ g ∈ consecutives data thr,
        List.Chain' (fun a b : Nat × ℚ => a.1 ≤ b.1 ∧ b.1 - a.1 ≤ thr) g.2)
    ∧ List.Chain' (fun p q : Nat × Frame2 =>
        ∀ a ∈ p.2.getLast?, ∀ b ∈ q.2.head?, a.1 ≤ b.1 ∧ thr < b.1 - a.1)
        (consecutives data thr) := by
  rw [consecutives_eq_enum_chunks]
  have hflat : (chunks thr data).flatten = data := chunks_flatten thr data
  have hne : ∀ c ∈ chunks thr data, c ≠ [] := chunks_ne_nil thr data
  have hnil : [] ∉ chunks thr data := fun hmem => (hne [] hmem) rfl
  have hsnd : (chunks thr data).enum.map Prod.snd = chunks thr data := by
    rw [List.enum_eq_enumFrom, List.enumFrom_map_snd]
  have hs2 : List.Chain' (fun a b : Nat × ℚ => a.1 ≤ b.1) (chunks thr data).flatten := by
    rw [hflat]; exact hsorted
  have hsp := (List.chain'_flatten hnil).mp hs2
  refine ⟨?_, ?_, ?_, ?_, ?_⟩
  · rw [hsnd]; exact hflat
  · rw [List.enum_eq_enumFrom, List.enumFrom_map_fst, List.range_eq_range',
      List.enumFrom_length]
  · intro g hg
    exact hne g.2 (snd_mem_of_mem_enum hg)
  · intro g hg
    have h1 : g.2 ∈ chunks thr data := snd_mem_of_mem_enum hg
    have hA := hsp.1 g.2 h1
    have hB := chunks_chain thr data g.2 h1
    rw [List.chain'_iff_get] at hA hB ⊢
    intro i hi
    refine ⟨hA i hi, ?_⟩
    have hb := hB i hi
    have ha := hA i hi
    omega
  · have hg1 : List.Chain'
        (fun p q : Nat × Frame2 =>
          ∀ a ∈ p.2.getLast?, ∀ b ∈ q.2.head?, (b.1 : Int) - (a.1 : Int) > (thr : Int))
        (chunks thr data).enum := by
      have h := chunks_gap thr data
      rw [← hsnd] at h
      exact (List.chain'_map Prod.snd).mp h
    have hg2 : List.Chain'
        (fun p q : Nat × Frame2 =>
          ∀ a ∈ p.2.getLast?, ∀ b ∈ q.2.head?, a.1 ≤ b.1)
        (chunks thr data).enum := by
      have h := hsp.2
      rw [← hsnd] at h
      exact (List.chain'_map Prod.snd).mp h
    rw [List.chain'_iff_get] at hg1 hg2 ⊢
    intro i hi
    intro a ha b hb
    refine ⟨hg2 i hi a ha b hb, ?_⟩
    have h3 := hg1 i hi a ha b hb
    omega

/-- Witness for C2: the partition properties, instantiated on a concrete
sorted three-row dataset with threshold 20. -/
theorem C2_consecutives_partition_witness :
    List.Chain' (fun a b : Nat × ℚ => a.1 ≤ b.1) dataC2
    ∧ ((((consecutives dataC2 20).map Prod.snd).flatten = dataC2)
      ∧ ((consecutives dataC2 20).map Prod.fst
          = List.range (consecutives dataC2 20).length)
      ∧ (∀ g ∈ consecutives dataC2 20, g.2 ≠ [])
      ∧ (∀ g ∈ consecutives dataC2 20,
          List.Chain' (fun a b : Nat × ℚ => a.1 ≤ b.1 ∧ b.1 - a.1 ≤ 20) g.2)
      ∧ List.Chain' (fun p q : Nat × Frame2 =>
          ∀ a ∈ p.2.getLast?, ∀ b ∈ q.2.head?, a.1 ≤ b.1 ∧ 20 < b.1 - a.1)
          (consecutives dataC2 20)) :=
  ⟨by simp [dataC2, List.chain'_cons],
   C2_consecutives_partition dataC2 20 (by simp [dataC2, List.chain'_cons])⟩

/-- Claim C8: `time_filter` with no optional keyword present returns the
dataset unchanged. -/
theorem C8_time_filter_identity (data : Frame) :
    time_filter data {} = .ok (.frame data) := rfl

/-- Claim C10: `trapz` of an empty dataset returns 0 for every choice of
the optional gap threshold, including the default. -/
theorem C10_trapz_empty (offset : Option Nat) : trapz [] offset = 0 := rfl

theorem chunks_two_points (thr t0 : Nat) (v : ℚ) (h : ¬ thr < 60) :
    chunks thr [(t0, v), (t0 + 60, v)] = [[(t0, v), (t0 + 60, v)]] := by
  have hcond : ¬ (((t0 + 60 : Nat) : Int) - (t0 : Int) > (thr : Int)) := by
    push_cast
    omega
  simp only [chunks, chunksGo, if_neg hcond]

/-- Claim C3: integrating a single run of two equal readings one hour apart
yields that reading's value (the whole-hour unit convention, the per-run
integral being truncated to whole hours); on the five hourly readings of 2
the integral is 8, both with the default threshold and with a 2-hour one. -/
theorem C3_trapz_unit_convention :
    (∀ (t0 : Nat) (v : ℤ),
      trapz [(t0, (v : ℚ)), (t0 + 60, (v : ℚ))] none = v * 1)
    ∧ trapz hourlyTwos none = 8
    ∧ trapz hourlyTwos (some 120) = 8 := by
  have hA480 : trapzArea hourlyTwos = 480 := by
    norm_num [trapzArea, hourlyTwos, List.zipWith_cons_cons]
  have h8 : approx_kwh hourlyTwos = 8 := by
    rw [approx_kwh, hA480]
    have hq : (480 : ℚ) / 60 = 8 := by norm_num
    rw [hq]
    show Int.tdiv (8 : ℚ).num ((8 : ℚ).den : Int) = 8
    decide
  have hch1 : chunks timedeltaMaxMinutes hourlyTwos = [hourlyTwos] := by decide
  have hch2 : chunks 120 hourlyTwos = [hourlyTwos] := by decide
  refine ⟨?_, ?_, ?_⟩
  · intro t0 v
    have hT : ¬ timedeltaMaxMinutes < 60 := by decide
    show ((consecutives [(t0, (v : ℚ)), (t0 + 60, (v : ℚ))]
        (Option.getD none timedeltaMaxMinutes)).map (fun g => approx_kwh g.2)).sum
        = v * 1
    rw [Option.getD_none, consecutives_eq_enum_chunks,
      chunks_two_points timedeltaMaxMinutes t0 (v : ℚ) hT]
    have harea : trapzArea [(t0, (v : ℚ)), (t0 + 60, (v : ℚ))] = 60 * (v : ℚ) := by
      show (((((t0 + 60 : Nat) : ℚ) - ((t0 : Nat) : ℚ)) * ((v : ℚ) + (v : ℚ))) / 2 + 0)
          = 60 * (v : ℚ)
      push_cast
      ring
    have happrox : approx_kwh [(t0, (v : ℚ)), (t0 + 60, (v : ℚ))] = v := by
      rw [approx_kwh, harea]
      have h60 : (60 : ℚ) * (v : ℚ) / 60 = ((v : ℤ) : ℚ) := by
        field_simp
      rw [h60, truncQ]
      simp
    simp [List.enum, List.enumFrom, happrox]
  · show ((consecutives hourlyTwos (Option.getD none timedeltaMaxMinutes)).map
        (fun g => approx_kwh g.2)).sum = 8
    rw [Option.getD_none, consecutives_eq_enum_chunks, hch1]
    simp [List.enum, List.enumFrom, h8]
  · show ((consecutives hourlyTwos (Option.getD (some 120) timedeltaMaxMinutes)).map
        (fun g => approx_kwh g.2)).sum = 8
    rw [Option.getD_some, consecutives_eq_enum_chunks, hch2]
    simp [List.enum, List.enumFrom, h8]

/-- Counterexample to C1 as stated: a calendar label matching no row of the
dataset, used alone, makes `range_token_df` return Python `None` (not an
empty frame), `data_in_range` hand that `None` on, and an enclosing
`time_filter` chain abort with `AttributeError` instead of continuing. -/
theorem C1_counterexample :
    range_token_df frameAB (.label (.y 1999)) = none
    ∧ data_in_range frameAB (.one (.label (.y 1999))) = .ok .null
    ∧ time_filter frameAB
        { «include» := some (.one (.label (.y 1999))),
          daysofweek := some [0, 1, 2, 3, 4, 5, 6] }
        = .error "AttributeError" := by
  refine ⟨rfl, rfl, rfl⟩

/-- Claim C1 as amended: a failing label token contributes nothing when it
occurs inside a token list — removing all failing tokens does not change
`data_in_range` — while a failing token used alone yields Python `None`
(the printed diagnostic aside), not an empty dataset. -/
theorem C1_amended_token_failure :
    (∀ (data : Frame) (tokens : List RangeToken),
        data_in_range data (.many tokens)
          = data_in_range data
              (.many (tokens.filter (fun tk => (range_token_df data tk).isSome))))
    ∧ (∀ (data : Frame) (l : Label),
        range_token_df data (.label l) = none →
        data_in_range data (.one (.label l)) = .ok .null) := by
  constructor
  · intro data tokens
    have key : ∀ (ts : List RangeToken),
        ts.filterMap (range_token_df data)
          = (ts.filter (fun tk => (range_token_df data tk).isSome)).filterMap
              (range_token_df data) := by
      intro ts
      induction ts with
      | nil => rfl
      | cons a ts ih =>
          cases h : range_token_df data a with
          | none => simp [List.filterMap_cons, List.filter_cons, h, ih]
          | some f => simp [List.filterMap_cons, List.filter_cons, h, ih]
    show (if (tokens.filterMap (range_token_df data)).isEmpty then _ else _) = _
    rw [key tokens]
    rfl
  · intro data l h
    show (match range_token_df data (.label l) with
          | some f => Except.ok (PyVal.frame f)
          | none => Except.ok PyVal.null) = Except.ok PyVal.null
    rw [h]

/-- Witness for C1's amended claim at a concrete failing label. -/
theorem C1_amended_token_failure_witness :
    range_token_df frameAB (.label (.y 1999)) = none
    ∧ data_in_range frameAB (.one (.label (.y 1999))) = .ok .null :=
  ⟨rfl, C1_amended_token_failure.2 frameAB (.y 1999) rfl⟩

/-- Counterexample to C7 as stated: with a `DateRange` that resolves to
nothing (here a label absent from the dataset) as both `include` and
`blacklist`, `time_filter` raises `AttributeError` instead of producing an
empty result. -/
theorem C7_counterexample :
    time_filter frameAB
      { «include» := some (.one (.label (.y 1999))),
        blacklist := some (.one (.label (.y 1999))) }
      = .error "AttributeError" := rfl

theorem mem_sortIndex {x : DateTime × ℚ} {f : Frame} : x ∈ sortIndex f ↔ x ∈ f := by
  simp [sortIndex, List.mem_mergeSort]

/-- Claim C7 as amended: whenever the shared `DateRange` resolves against
the dataset to an actual DataFrame (rather than `None` or an error) and the
`times` field is not the degenerate empty list, a `time_filter` whose
`blacklist` equals its `include` returns an empty frame, whatever the other
optional fields are. -/
theorem C7_amended_blacklist_cancels_include (data : Frame) (r : DRange)
    (t? : Option Times) (d? : Option (List Nat)) (m? : Option (List Nat)) (B : Frame)
    (hr : data_in_range data r = .ok (.frame B))
    (ht : t? ≠ some (.windows [])) :
    time_filter data
      { «include» := some r, times := t?, daysofweek := d?, months := m?,
        blacklist := some r }
      = .ok (.frame []) := by
  obtain ⟨C, hC, hsubC⟩ : ∃ C,
      (match t? with
       | none => Except.ok (PyVal.frame B)
       | some ts => stageTimes (PyVal.frame B) ts) = Except.ok (PyVal.frame C)
      ∧ ∀ x ∈ C, x ∈ B := by
    cases t? with
    | none => exact ⟨B, rfl, fun x hx => hx⟩
    | some ts =>
        cases ts with
        | pair s e =>
            refine ⟨between_time B s e, rfl, ?_⟩
            intro x hx
            exact (List.mem_filter.mp hx).1
        | windows ps =>
            cases ps with
            | nil => exact absurd rfl ht
            | cons p ps =>
                refine ⟨_, rfl, ?_⟩
                intro x hx
                have hx2 := mem_sortIndex.mp hx
                rw [List.mem_flatten] at hx2
                obtain ⟨w, hw, hxw⟩ := hx2
                rw [List.mem_map] at hw
                obtain ⟨pr, _, rfl⟩ := hw
                exact (List.mem_filter.mp hxw).1
  obtain ⟨D, hD, hsubD⟩ : ∃ D,
      (match d? with
       | none => Except.ok (PyVal.frame C)
       | some days => stageDays (PyVal.frame C) days) = Except.ok (PyVal.frame D)
      ∧ ∀ x ∈ D, x ∈ C := by
    cases d? with
    | none => exact ⟨C, rfl, fun x hx => hx⟩
    | some days =>
        refine ⟨_, rfl, ?_⟩
        intro x hx
        exact (List.mem_filter.mp hx).1
  obtain ⟨E, hE, hsubE⟩ : ∃ E,
      (match m? with
       | none => Except.ok (PyVal.frame D)
       | some ms => stageMonths (PyVal.frame D) ms) = Except.ok (PyVal.frame E)
      ∧ ∀ x ∈ E, x ∈ D := by
    cases m? with
    | none => exact ⟨D, rfl, fun x hx => hx⟩
    | some ms =>
        refine ⟨_, rfl, ?_⟩
        intro x hx
        exact (List.mem_filter.mp hx).1
  have hblack : stageBlacklist data (PyVal.frame E) r = Except.ok (PyVal.frame []) := by
    have hfil : E.filter (fun x => !((B.map (fun y => y.1)).contains x.1)) = [] := by
      rw [List.filter_eq_nil_iff]
      intro x hx
      have hxB : x ∈ B := hsubC _ (hsubD _ (hsubE _ hx))
      have hmem : x.1 ∈ B.map (fun y => y.1) := List.mem_map_of_mem _ hxB
      simp [hmem]
    show (data_in_range data r).bind _ = _
    rw [hr]
    show Except.ok (PyVal.frame (E.filter _)) = _
    rw [hfil]
  show (data_in_range data r).bind _ = _
  rw [hr]
  show (match t? with
        | none => Except.ok (PyVal.frame B)
        | some ts => stageTimes (PyVal.frame B) ts).bind _ = _
  rw [hC]
  show (match d? with
        | none => Except.ok (PyVal.frame C)
        | some days => stageDays (PyVal.frame C) days).bind _ = _
  rw [hD]
  show (match m? with
        | none => Except.ok (PyVal.frame D)
        | some ms => stageMonths (PyVal.frame D) ms).bind _ = _
  rw [hE]
  show stageBlacklist data (PyVal.frame E) r = _
  exact hblack

/-- Witness for C7's amended claim at a concrete resolvable range. -/
theorem C7_amended_blacklist_cancels_include_witness :
    (data_in_range frameAB (.one (.pair none none)) = .ok (.frame frameAB)
      ∧ (none : Option Times) ≠ some (.windows []))
    ∧ time_filter frameAB
        { «include» := some (.one (.pair none none)),
          blacklist := some (.one (.pair none none)) }
        = .ok (.frame []) :=
  ⟨⟨rfl, by decide⟩,
   C7_amended_blacklist_cancels_include frameAB (.one (.pair none none))
     none none none frameAB rfl (by decide)⟩

/-- Counterexample to C9 as stated: with a duplicated timestamp in the
first dataset, `.loc` re-expands the label that `Index.intersection`
deduplicated, and the two results of `intersect` have different lengths. -/
theorem C9_counterexample :
    (intersect [(0, 1), (0, 2)] [(0, 5)]).1.length = 2
    ∧ (intersect [(0, 1), (0, 2)] [(0, 5)]).2.length = 1 := by
  refine ⟨rfl, rfl⟩

theorem filter_beq_single (d : Frame2) (hd : (d.map Prod.fst).Nodup) (t : Nat)
    (ht : t ∈ d.map Prod.fst) :
    ∃ v, d.filter (fun r => r.1 == t) = [(t, v)] := by
  induction d with
  | nil => simp at ht
  | cons r d ih =>
      rw [List.map_cons, List.nodup_cons] at hd
      by_cases hrt : r.1 = t
      · refine ⟨r.2, ?_⟩
        have hnil : d.filter (fun r => r.1 == t) = [] := by
          rw [List.filter_eq_nil_iff]
          intro x hx hbeq
          rw [beq_iff_eq] at hbeq
          apply hd.1
          rw [hrt, ← hbeq]
          exact List.mem_map_of_mem Prod.fst hx
        have hb : (r.1 == t) = true := by rw [beq_iff_eq]; exact hrt
        rw [List.filter_cons, if_pos hb, hnil]
        rw [← hrt]
      · have hb : (r.1 == t) = false := by
          rw [beq_eq_false_iff_ne]
          exact hrt
        rw [List.filter_cons, hb]
        simp only [Bool.false_eq_true, if_false]
        rw [List.map_cons, List.mem_cons] at ht
        rcases ht with h1 | h1
        · exact absurd h1.symm hrt
        · exact ih hd.2 h1

theorem loc_length (d : Frame2) (hd : (d.map Prod.fst).Nodup) (ixs : List Nat)
    (hix : ∀ t ∈ ixs, t ∈ d.map Prod.fst) :
    (loc d ixs).length = ixs.length := by
  induction ixs with
  | nil => rfl
  | cons t ixs ih =>
      obtain ⟨v, hv⟩ := filter_beq_single d hd t (hix t (List.mem_cons_self t ixs))
      show ((d.filter (fun r => r.1 == t)) ++ (loc d ixs)).length = ixs.length + 1
      rw [List.length_append, hv, ih (fun u hu => hix u (List.mem_cons_of_mem t hu))]
      simp only [List.length_cons, List.length_nil]
      omega

theorem loc_cons_of_ne (r : Nat × ℚ) (d : Frame2) (ixs : List Nat)
    (h : ∀ t ∈ ixs, r.1 ≠ t) : loc (r :: d) ixs = loc d ixs := by
  unfold loc
  congr 1
  apply List.map_congr_left
  intro t ht
  have hb : (r.1 == t) = false := by
    rw [beq_eq_false_iff_ne]
    exact h t ht
  rw [List.filter_cons, hb]
  simp

theorem loc_map_fst (a : Frame2) (ha : (a.map Prod.fst).Nodup) :
    loc a (a.map Prod.fst) = a := by
  induction a with
  | nil => rfl
  | cons r d ih =>
      rw [List.map_cons, List.nodup_cons] at ha
      show ((r :: d).filter (fun x => x.1 == r.1)) ++ (loc (r :: d) (d.map Prod.fst))
          = r :: d
      have h1 : (r :: d).filter (fun x => x.1 == r.1) = [r] := by
        have hb : (r.1 == r.1) = true := by rw [beq_iff_eq]
        rw [List.filter_cons, if_pos hb, List.filter_eq_nil_iff.mpr]
        intro x hx hbeq
        rw [beq_iff_eq] at hbeq
        exact ha.1 (hbeq ▸ List.mem_map_of_mem Prod.fst hx)
      have h2 : loc (r :: d) (d.map Prod.fst) = loc d (d.map Prod.fst) := by
        apply loc_cons_of_ne
        intro t ht h3
        exact ha.1 (h3 ▸ ht)
      rw [h1, h2, ih ha.2]
      rfl

/-- Claim C9 as amended: provided neither dataset has a duplicated
timestamp, `intersect` returns two results of equal length, that length is
the number of index positions shared by the two datasets,
`intersect(a,a) = (a,a)`, and an empty intersection yields two empty
results without error. -/
theorem C9_amended_intersect (a b : Frame2)
    (ha : (a.map Prod.fst).Nodup) (hb : (b.map Prod.fst).Nodup) :
    ((intersect a b).1.length = (intersect a b).2.length
      ∧ (intersect a b).1.length
          = ((a.map Prod.fst).filter (fun t => t ∈ b.map Prod.fst)).length)
    ∧ intersect a a = (a, a)
    ∧ ((∀ t ∈ a.map Prod.fst, t ∉ b.map Prod.fst) → intersect a b = ([], [])) := by
  have hdedup : (a.map Prod.fst).dedup = a.map Prod.fst := List.Nodup.dedup ha
  have hixs : indexIntersection (a.map Prod.fst) (b.map Prod.fst)
      = (a.map Prod.fst).filter (fun t => (b.map Prod.fst).contains t) := by
    rw [indexIntersection, hdedup]
  have hmem : ∀ t ∈ (a.map Prod.fst).filter (fun t => (b.map Prod.fst).contains t),
      t ∈ a.map Prod.fst ∧ t ∈ b.map Prod.fst := by
    intro t ht
    have h1 := List.mem_filter.mp ht
    refine ⟨h1.1, ?_⟩
    have h2 := h1.2
    simpa using h2
  refine ⟨⟨?_, ?_⟩, ?_, ?_⟩
  · show (loc a (indexIntersection _ _)).length = (loc b (indexIntersection _ _)).length
    rw [hixs, loc_length a ha _ (fun t ht => (hmem t ht).1),
      loc_length b hb _ (fun t ht => (hmem t ht).2)]
  · show (loc a (indexIntersection _ _)).length = _
    rw [hixs, loc_length a ha _ (fun t ht => (hmem t ht).1)]
    congr 1
    apply List.filter_congr
    intro t ht
    simp
  · show (loc a (indexIntersection _ _), loc a (indexIntersection _ _)) = (a, a)
    have h1 : indexIntersection (a.map Prod.fst) (a.map Prod.fst) = a.map Prod.fst := by
      rw [indexIntersection, hdedup, List.filter_eq_self]
      intro t ht
      simpa using ht
    rw [h1, loc_map_fst a ha]
  · intro hdisj
    have h1 : indexIntersection (a.map Prod.fst) (b.map Prod.fst) = [] := by
      rw [hixs, List.filter_eq_nil_iff]
      intro t ht hc
      exact hdisj t ht (by simpa using hc)
    show (loc a (indexIntersection _ _), loc b (indexIntersection _ _)) = ([], [])
    rw [h1]
    rfl

/-- Witness for C9's amended claim on concrete duplicate-free datasets. -/
theorem C9_amended_intersect_witness :
    (([(0, 1), (1, 2)] : Frame2).map Prod.fst).Nodup
    ∧ (([(1, 5)] : Frame2).map Prod.fst).Nodup
    ∧ (((intersect [(0, 1), (1, 2)] [(1, 5)]).1.length
          = (intersect [(0, 1), (1, 2)] [(1, 5)]).2.length
        ∧ (intersect [(0, 1), (1, 2)] [(1, 5)]).1.length
            = ((([(0, 1), (1, 2)] : Frame2).map Prod.fst).filter
                (fun t => t ∈ (([(1, 5)] : Frame2).map Prod.fst))).length)
      ∧ intersect [(0, 1), (1, 2)] [(0, 1), (1, 2)] = ([(0, 1), (1, 2)], [(0, 1), (1, 2)])
      ∧ ((∀ t ∈ (([(0, 1), (1, 2)] : Frame2).map Prod.fst),
            t ∉ (([(1, 5)] : Frame2).map Prod.fst)) →
          intersect [(0, 1), (1, 2)] [(1, 5)] = ([], []))) :=
  ⟨by decide, by decide,
   C9_amended_intersect [(0, 1), (1, 2)] [(1, 5)] (by decide) (by decide)⟩

theorem q_array_length (n b : Nat) : (q_array n b).length = n := by
  rw [q_array, linspace]
  split
  · simp [*]
  · simp

theorem q_array_getD (n b i : Nat) (hn : 2 ≤ n) (hb : 1 ≤ b) (hi : i < n) :
    (q_array n b).getD i 0 = ((b : ℚ) + (i : ℚ)) / ((n : ℚ) + 2 * (b : ℚ) - 1) := by
  have hn1 : n ≠ 1 := by omega
  have hN0 : (0 : ℚ) < (n : ℚ) + 2 * (b : ℚ) - 1 := by
    have h2 : (2 : ℚ) ≤ (n : ℚ) := by exact_mod_cast hn
    have h1 : (1 : ℚ) ≤ (b : ℚ) := by exact_mod_cast hb
    linarith
  have hNne : ((n : ℚ) + 2 * (b : ℚ) - 1) ≠ 0 := ne_of_gt hN0
  have hnne : ((n : ℚ) - 1) ≠ 0 := by
    have h2 : (2 : ℚ) ≤ (n : ℚ) := by exact_mod_cast hn
    intro hc
    have : (n : ℚ) = 1 := by linarith
    linarith
  rw [q_array, linspace, if_neg hn1]
  have hget : ((List.range n).map
      (fun (k : Nat) => (b : ℚ) * q_step n b
        + (k : ℚ) * ((1 - (b : ℚ) * q_step n b - (b : ℚ) * q_step n b) / ((n : ℚ) - 1)))).getD i 0
      = (b : ℚ) * q_step n b
        + (i : ℚ) * ((1 - (b : ℚ) * q_step n b - (b : ℚ) * q_step n b) / ((n : ℚ) - 1)) := by
    rw [List.getD_eq_getElem?_getD, List.getElem?_map, List.getElem?_range hi]
    rfl
  rw [hget, q_step]
  field_simp
  ring

theorem q_array_getD_pos (n b i : Nat) (hn : 2 ≤ n) (hb : 1 ≤ b) (hi : i < n) :
    0 < (q_array n b).getD i 0 ∧ (q_array n b).getD i 0 < 1 := by
  rw [q_array_getD n b i hn hb hi]
  have h2 : (2 : ℚ) ≤ (n : ℚ) := by exact_mod_cast hn
  have h1 : (1 : ℚ) ≤ (b : ℚ) := by exact_mod_cast hb
  have hiq : (i : ℚ) < (n : ℚ) := by exact_mod_cast hi
  have hi0 : (0 : ℚ) ≤ (i : ℚ) := by positivity
  have hN0 : (0 : ℚ) < (n : ℚ) + 2 * (b : ℚ) - 1 := by linarith
  constructor
  · apply div_pos
    · linarith
    · exact hN0
  · rw [div_lt_one hN0]
    linarith

theorem map_snd_zipWith_pair :
    ∀ (xs : List (Nat × ℚ)) (qs : List ℚ), xs.length = qs.length →
      (List.zipWith (fun p q => (p.1, q)) xs qs).map Prod.snd = qs := by
  intro xs
  induction xs with
  | nil =>
      intro qs h
      cases qs with
      | nil => rfl
      | cons q qs => simp at h
  | cons x xs ih =>
      intro qs h
      cases qs with
      | nil => simp at h
      | cons q qs =>
          simp only [List.zipWith_cons_cons, List.map_cons]
          rw [ih qs (by simpa using h)]

/-- Claim C4: for a sample of size at least 2 and a buffer of at least 1,
`adjust_sample`'s quantile assignment gives sorted rank `i` the quantile
`(buffer + i) / (n + 2·buffer − 1)`, which lies strictly between 0 and 1. -/
theorem C4_adjust_sample_quantiles (series : List (Nat × ℚ)) (b : Nat)
    (hn : 2 ≤ series.length) (hb : 1 ≤ b) (i : Nat) (hi : i < series.length) :
    ((assignQuantiles series b).map Prod.snd).getD i 0
      = ((b : ℚ) + (i : ℚ)) / ((series.length : ℚ) + 2 * (b : ℚ) - 1)
    ∧ 0 < ((assignQuantiles series b).map Prod.snd).getD i 0
    ∧ ((assignQuantiles series b).map Prod.snd).getD i 0 < 1 := by
  have hsnd : (assignQuantiles series b).map Prod.snd = q_array series.length b := by
    rw [assignQuantiles]
    apply map_snd_zipWith_pair
    rw [sort_values, List.length_mergeSort, q_array_length]
  rw [hsnd]
  exact ⟨q_array_getD series.length b i hn hb hi,
    (q_array_getD_pos series.length b i hn hb hi).1,
    (q_array_getD_pos series.length b i hn hb hi).2⟩

/-- Witness for C4 on a concrete three-element sample with buffer 1:
rank 1 receives quantile (1+1)/(3+2−1) = 1/2, strictly inside (0,1). -/
theorem C4_adjust_sample_quantiles_witness :
    (2 ≤ 3 ∧ 1 ≤ 1)
    ∧ ((assignQuantiles [((0 : Nat), (5 : ℚ)), (1, 1), (2, 3)] 1).map Prod.snd).getD 1 0
        = 1 / 2
    ∧ 0 < ((assignQuantiles [((0 : Nat), (5 : ℚ)), (1, 1), (2, 3)] 1).map
        Prod.snd).getD 1 0
    ∧ ((assignQuantiles [((0 : Nat), (5 : ℚ)), (1, 1), (2, 3)] 1).map
        Prod.snd).getD 1 0 < 1 := by
  have h := C4_adjust_sample_quantiles [((0 : Nat), (5 : ℚ)), (1, 1), (2, 3)] 1
    (by decide) (by decide) 1 (by decide)
  refine ⟨⟨by norm_num, le_refl 1⟩, ?_, h.2.1, h.2.2⟩
  rw [h.1]
  norm_num

/-- Claim C6: for a non-empty, non-degenerate sample, `lognorm_params`
returns a triple whose location is exactly 0, whose shape equals 1.4826
times the median absolute deviation of the log-transformed sample (in
which a `-inf` produced by the log of a zero reading has been replaced by
0 before any downstream estimation), and whose scale is `e` raised to the
estimated density mode.  The purely numerical library calls are the
parameters `logO` (`np.log`, `none` encoding `-inf`), `kdeMode`
(`gaussian_kde` + `minimize_scalar`) and `expO` (`math.exp`). -/
theorem C6_lognorm_params_structure
    (logO : ℚ → Option ℚ) (kdeMode : List ℚ → ℚ) (expO : ℚ → ℚ)
    (values : List ℚ) (hne : values ≠ [])
    (hdeg : ∃ u ∈ values, ∃ w ∈ values, u ≠ w) :
    (lognorm_params logO kdeMode expO values).2.1 = 0
    ∧ (lognorm_params logO kdeMode expO values).1
        = 1.4826 * median ((logTransform logO values).map
            (fun x => |x - median (logTransform logO values)|))
    ∧ (lognorm_params logO kdeMode expO values).2.2
        = expO (kdeMode (logTransform logO values))
    ∧ logTransform logO values = (values.map logO).map (fun x => x.getD 0) := by
  refine ⟨rfl, ?_, rfl, rfl⟩
  show mad (logTransform logO values) * 1.4826 = _
  rw [mad]
  ring

/-- Witness for C6 with concrete numeric oracles on the sample `[1, 2]`. -/
theorem C6_lognorm_params_structure_witness :
    (([1, 2] : List ℚ) ≠ []
      ∧ ∃ u ∈ ([1, 2] : List ℚ), ∃ w ∈ ([1, 2] : List ℚ), u ≠ w)
    ∧ (lognorm_params (fun q => some q) (fun _ => 0) (fun _ => 1) [1, 2]).2.1 = 0
    ∧ (lognorm_params (fun q => some q) (fun _ => 0) (fun _ => 1) [1, 2]).1
        = 1.4826 * median ((logTransform (fun q => some q) [1, 2]).map
            (fun x => |x - median (logTransform (fun q => some q) [1, 2])|))
    ∧ (lognorm_params (fun q => some q) (fun _ => 0) (fun _ => 1) [1, 2]).2.2
        = (fun _ : ℚ => (1 : ℚ)) ((fun _ : List ℚ => (0 : ℚ))
            (logTransform (fun q => some q) [1, 2]))
    ∧ logTransform (fun q => some q) [1, 2]
        = (([1, 2] : List ℚ).map (fun q => some q)).map (fun x => x.getD 0) := by
  have h := C6_lognorm_params_structure (fun q => some q) (fun _ => 0) (fun _ => 1)
    [1, 2] (by decide) ⟨1, by decide, 2, by decide, by decide⟩
  exact ⟨⟨by decide, ⟨1, by decide, 2, by decide, by decide⟩⟩, h.1, h.2.1, h.2.2.1, h.2.2.2⟩

theorem map_fst_zipWith_pair :
    ∀ (xs : List (Nat × ℚ)) (qs : List ℚ), xs.length = qs.length →
      (List.zipWith (fun p q => (p.1, q)) xs qs).map Prod.fst = xs.map Prod.fst := by
  intro xs
  induction xs with
  | nil =>
      intro qs h
      cases qs with
      | nil => rfl
      | cons q qs => simp at h
  | cons x xs ih =>
      intro qs h
      cases qs with
      | nil => simp at h
      | cons q qs =>
          simp only [List.zipWith_cons_cons, List.map_cons]
          rw [ih qs (by simpa using h)]

theorem fst_nodup_inj (l : List (Nat × ℚ)) (hl : (l.map Prod.fst).Nodup) :
    ∀ x ∈ l, ∀ y ∈ l, x.1 = y.1 → x = y := by
  induction l with
  | nil => intro x hx; exact absurd hx (List.not_mem_nil x)
  | cons a l ih =>
      rw [List.map_cons, List.nodup_cons] at hl
      intro x hx y hy hxy
      rcases List.mem_cons.mp hx with rfl | hx'
      · rcases List.mem_cons.mp hy with rfl | hy'
        · rfl
        · exfalso
          apply hl.1
          rw [hxy]
          exact List.mem_map_of_mem Prod.fst hy'
      · rcases List.mem_cons.mp hy with rfl | hy'
        · exfalso
          apply hl.1
          rw [← hxy]
          exact List.mem_map_of_mem Prod.fst hx'
        · exact ih hl.2 x hx' y hy' hxy

theorem mem_zipWith_pair {x : Nat × ℚ} {xs : List (Nat × ℚ)} {qs : List ℚ}
    (hx : x ∈ List.zipWith (fun p q => (p.1, q)) xs qs) :
    ∃ k, ∃ (h1 : k < xs.length) (h2 : k < qs.length),
      (xs[k]).1 = x.1 ∧ qs[k] = x.2 := by
  rw [List.mem_iff_getElem] at hx
  obtain ⟨k, hk, hkx⟩ := hx
  have h1 : k < xs.length := List.lt_length_left_of_zipWith hk
  have h2 : k < qs.length := List.lt_length_right_of_zipWith hk
  rw [List.getElem_zipWith] at hkx
  refine ⟨k, h1, h2, ?_, ?_⟩
  · rw [← hkx]
  · rw [← hkx]

theorem sort_values_pairwise (s : List (Nat × ℚ)) :
    (sort_values s).Pairwise (fun a b : Nat × ℚ => a.2 ≤ b.2) := by
  have htrans : ∀ a b c : Nat × ℚ, (decide (a.2 ≤ b.2) = true) →
      (decide (b.2 ≤ c.2) = true) → decide (a.2 ≤ c.2) = true := by
    intro a b c hab hbc
    simp only [decide_eq_true_eq] at hab hbc ⊢
    exact le_trans hab hbc
  have htotal : ∀ a b : Nat × ℚ,
      (decide (a.2 ≤ b.2) || decide (b.2 ≤ a.2)) = true := by
    intro a b
    simpa using le_total a.2 b.2
  have h := @List.sorted_mergeSort (Nat × ℚ)
    (fun a b : Nat × ℚ => decide (a.2 ≤ b.2)) htrans htotal s
  exact h.imp (fun hab => of_decide_eq_true hab)

theorem sort_index_pairwise (s : List (Nat × ℚ)) :
    (sort_index s).Pairwise (fun a b : Nat × ℚ => a.1 ≤ b.1) := by
  have htrans : ∀ a b c : Nat × ℚ, (decide (a.1 ≤ b.1) = true) →
      (decide (b.1 ≤ c.1) = true) → decide (a.1 ≤ c.1) = true := by
    intro a b c hab hbc
    simp only [decide_eq_true_eq] at hab hbc ⊢
    exact le_trans hab hbc
  have htotal : ∀ a b : Nat × ℚ,
      (decide (a.1 ≤ b.1) || decide (b.1 ≤ a.1)) = true := by
    intro a b
    simpa using le_total a.1 b.1
  have h := @List.sorted_mergeSort (Nat × ℚ)
    (fun a b : Nat × ℚ => decide (a.1 ≤ b.1)) htrans htotal s
  exact h.imp (fun hab => of_decide_eq_true hab)

theorem q_array_strict (n b k m : Nat) (hb : 1 ≤ b) (hkm : k < m) (hm : m < n) :
    (q_array n b).getD k 0 < (q_array n b).getD m 0 := by
  have hn : 2 ≤ n := by omega
  rw [q_array_getD n b k hn hb (by omega), q_array_getD n b m hn hb hm]
  have hN0 : (0 : ℚ) < (n : ℚ) + 2 * (b : ℚ) - 1 := by
    have h2 : (2 : ℚ) ≤ (n : ℚ) := by exact_mod_cast hn
    have h1 : (1 : ℚ) ≤ (b : ℚ) := by exact_mod_cast hb
    linarith
  have hkmq : (k : ℚ) < (m : ℚ) := by exact_mod_cast hkm
  exact (div_lt_div_iff_of_pos_right hN0).mpr (by linarith)

/-- Claim C5: `adjust_sample` is quantile-rank-preserving — for positions
carrying strictly increasing sample values the adjusted values are
strictly increasing (for any strictly increasing inverse CDF `ppf`, which
`stats.lognorm.ppf` at positive shape and scale is) — and the adjusted
series is keyed by the input series' own index order. -/
theorem C5_adjust_sample_rank_preserving
    (ppf : ℚ → ℚ) (hppf : StrictMono ppf)
    (series : List (Nat × ℚ)) (b : Nat) (hb : 1 ≤ b)
    (hidx : List.Chain' (fun p q : Nat × ℚ => p.1 < q.1) series) :
    ((adjust_sample ppf series b).map Prod.fst = series.map Prod.fst)
    ∧ (∀ i j ui vj, (i, ui) ∈ series → (j, vj) ∈ series → i < j → ui < vj →
        ∀ ai aj, (i, ai) ∈ adjust_sample ppf series b →
          (j, aj) ∈ adjust_sample ppf series b → ai < aj) := by
  have hpw : (series.map Prod.fst).Pairwise (· < ·) := by
    rw [← List.chain'_iff_pairwise]
    exact (List.chain'_map Prod.fst).mpr hidx
  have hnodupS : (series.map Prod.fst).Nodup := hpw.imp ne_of_lt
  have hsv : List.Perm (sort_values series) series :=
    List.mergeSort_perm series (fun a b : Nat × ℚ => decide (a.2 ≤ b.2))
  have hsvlen : (sort_values series).length = series.length := hsv.length_eq
  have hqlen : (q_array series.length b).length = series.length := q_array_length _ _
  have hAfst : (assignQuantiles series b).map Prod.fst
      = (sort_values series).map Prod.fst :=
    map_fst_zipWith_pair _ _ (by rw [hsvlen, hqlen])
  have hApermfst : List.Perm ((assignQuantiles series b).map Prod.fst) (series.map Prod.fst) := by
    rw [hAfst]
    exact hsv.map Prod.fst
  have hSIperm : List.Perm (sort_index (assignQuantiles series b)) (assignQuantiles series b) :=
    List.mergeSort_perm _ (fun a b : Nat × ℚ => decide (a.1 ≤ b.1))
  constructor
  · show ((sort_index (assignQuantiles series b)).map
        (fun p : Nat × ℚ => (p.1, ppf p.2))).map Prod.fst = series.map Prod.fst
    rw [List.map_map]
    have hco : (Prod.fst ∘ fun p : Nat × ℚ => (p.1, ppf p.2)) = Prod.fst := rfl
    rw [hco]
    have hs1 : ((sort_index (assignQuantiles series b)).map Prod.fst).Sorted (· ≤ ·) :=
      (sort_index_pairwise (assignQuantiles series b)).map Prod.fst (fun a b h => h)
    have hs2 : (series.map Prod.fst).Sorted (· ≤ ·) := hpw.imp le_of_lt
    exact List.eq_of_perm_of_sorted ((hSIperm.map Prod.fst).trans hApermfst) hs1 hs2
  · intro i j ui vj hiu hjv hij huv ai aj hai haj
    have hmemA : ∀ {c : Nat} {ac : ℚ}, (c, ac) ∈ adjust_sample ppf series b →
        ∃ qc, (c, qc) ∈ assignQuantiles series b ∧ ac = ppf qc := by
      intro c ac h
      obtain ⟨p, hp, hpe⟩ := List.mem_map.mp h
      have h1 : p.1 = c := congrArg Prod.fst hpe
      have h2 : ppf p.2 = ac := congrArg Prod.snd hpe
      refine ⟨p.2, ?_, h2.symm⟩
      have hpA : p ∈ assignQuantiles series b := hSIperm.mem_iff.mp hp
      rw [← h1]
      exact hpA
    obtain ⟨qi, hqiA, haiq⟩ := hmemA hai
    obtain ⟨qj, hqjA, hajq⟩ := hmemA haj
    have hdec : ∀ {c : Nat} {qc : ℚ}, (c, qc) ∈ assignQuantiles series b →
        ∃ k, ∃ (h1 : k < (sort_values series).length),
          ((sort_values series)[k]).1 = c
          ∧ (q_array series.length b).getD k 0 = qc := by
      intro c qc h
      obtain ⟨k, h1, h2, he1, he2⟩ := mem_zipWith_pair h
      refine ⟨k, h1, he1, ?_⟩
      rw [List.getD_eq_getElem?_getD, List.getElem?_eq_getElem h2]
      exact he2
    obtain ⟨k, hk, hk1, hk2⟩ := hdec hqiA
    obtain ⟨m, hm, hm1, hm2⟩ := hdec hqjA
    have hsvnodup : ((sort_values series).map Prod.fst).Nodup :=
      ((hsv.map Prod.fst).nodup_iff).mpr hnodupS
    have hiu' : (i, ui) ∈ sort_values series := hsv.mem_iff.mpr hiu
    have hjv' : (j, vj) ∈ sort_values series := hsv.mem_iff.mpr hjv
    have hkval : (sort_values series)[k] = (i, ui) :=
      fst_nodup_inj _ hsvnodup _ (List.getElem_mem hk) _ hiu' (by rw [hk1])
    have hmval : (sort_values series)[m] = (j, vj) :=
      fst_nodup_inj _ hsvnodup _ (List.getElem_mem hm) _ hjv' (by rw [hm1])
    have hkm : k < m := by
      rcases Nat.lt_trichotomy k m with h | h | h
      · exact h
      · exfalso
        subst h
        rw [hkval] at hmval
        have : i = j := congrArg Prod.fst hmval
        omega
      · exfalso
        have hpws := List.pairwise_iff_getElem.mp (sort_values_pairwise series)
        have hle := hpws m k hm hk h
        rw [hkval, hmval] at hle
        exact absurd huv (not_lt.mpr hle)
    have hq : qi < qj := by
      rw [← hk2, ← hm2]
      exact q_array_strict series.length b k m hb hkm (by rw [← hsvlen]; exact hm)
    rw [haiq, hajq]
    exact hppf hq

/-- Witness for C5 with the identity inverse CDF on a concrete unsorted
sample keyed by indices 0, 1, 2. -/
theorem C5_adjust_sample_rank_preserving_witness :
    (StrictMono (fun q : ℚ => q)
      ∧ 1 ≤ 1
      ∧ List.Chain' (fun p q : Nat × ℚ => p.1 < q.1)
          [((0 : Nat), (5 : ℚ)), (1, 1), (2, 3)])
    ∧ ((adjust_sample (fun q : ℚ => q) [((0 : Nat), (5 : ℚ)), (1, 1), (2, 3)] 1).map
          Prod.fst
        = ([((0 : Nat), (5 : ℚ)), (1, 1), (2, 3)]).map Prod.fst)
    ∧ (∀ i j ui vj,
        (i, ui) ∈ [((0 : Nat), (5 : ℚ)), (1, 1), (2, 3)] →
        (j, vj) ∈ [((0 : Nat), (5 : ℚ)), (1, 1), (2, 3)] → i < j → ui < vj →
        ∀ ai aj,
          (i, ai) ∈ adjust_sample (fun q : ℚ => q)
            [((0 : Nat), (5 : ℚ)), (1, 1), (2, 3)] 1 →
          (j, aj) ∈ adjust_sample (fun q : ℚ => q)
            [((0 : Nat), (5 : ℚ)), (1, 1), (2, 3)] 1 → ai < aj) := by
  have h := C5_adjust_sample_rank_preserving (fun q : ℚ => q) (fun _ _ hlt => hlt)
    [((0 : Nat), (5 : ℚ)), (1, 1), (2, 3)] 1 (le_refl 1) (by simp [List.chain'_cons])
  exact ⟨⟨fun _ _ hlt => hlt, le_refl 1, by simp [List.chain'_cons]⟩, h.1, h.2⟩

end Energize
